import Mathlib

/-!
# Verification of the anytree-style tree core

Shallow embedding of the repository's node-linkage protocol
(`src/anytree/node/nodemixin.py`) and its traversal-iterator framework
(`src/anytree/iterators/abstractiter.py`,
`src/anytree/iterators/zigzaggroupiter.py`).

Node identity is modelled by natural-number ids.  The mutable heap of
node objects is a `TreeState`: each id has a parent reference
(`parentF`), an ordered children list (`childrenF`), a concrete node
variant tag (`variantF`, standing for the Python object's concrete
class used by the `isinstance` checks), and the class-level
`strict_mode` flag shared by all nodes of the variant (`strictMode`).

Walks along the parent chain in Python (`iter_path_reverse`) may
diverge on a corrupt (cyclic) heap; they are embedded as fuelled
recursions that report `fuelOut` when the fuel is exhausted, so that
divergence is visible as a distinguished outcome.  Mutating operations
return `Except (TreeErr × TreeState) TreeState`: an error carries the
heap state at the moment the exception is raised, which is how the
"tree is left unchanged after a failed attempt" claims are stated.
-/

set_option autoImplicit false

namespace AnyTree

/-- Errors raised by the node linkage protocol: `TreeError` for a
parent/child of the wrong node variant (`typeError`) and for a
duplicated child in a `children` assignment (`dupError`), `LoopError`
for self-parenting or cycle creation (`loopError`), `AssertionError`
for the defensive corruption checks (`assertFail`), and `fuelOut`
marking a parent-chain walk that does not terminate (divergence in
Python). -/
inductive TreeErr : Type where
  | typeError : TreeErr
  | dupError : TreeErr
  | loopError : TreeErr
  | assertFail : TreeErr
  | fuelOut : TreeErr
  deriving DecidableEq, Repr

/-- The heap of node objects: parent reference, children list, concrete
variant tag of every node id, plus the class-level `strict_mode` flag
(`NodeMixin.strict_mode`, shared by all nodes of the variant). -/
structure TreeState : Type where
  parentF : Nat → Option Nat
  childrenF : Nat → List Nat
  variantF : Nat → Nat
  strictMode : Bool

/-- Update the parent reference of one node. -/
def TreeState.withParent (s : TreeState) (n : Nat) (v : Option Nat) : TreeState :=
  { s with parentF := fun m => if m = n then v else s.parentF m }

/-- Update the children list of one node. -/
def TreeState.withChildren (s : TreeState) (n : Nat) (l : List Nat) : TreeState :=
  { s with childrenF := fun m => if m = n then l else s.childrenF m }

/-- Update the class-level `strict_mode` flag. -/
def TreeState.withStrict (s : TreeState) (b : Bool) : TreeState :=
  { s with strictMode := b }

/-- `NodeMixin.iter_path_reverse`, run to completion: the node itself
followed by its ancestor chain walking `parent` links up to the root.
Fuelled; `fuelOut` models the nonterminating walk on a cyclic heap. -/
def pathReverse (s : TreeState) : Nat → Nat → Except TreeErr (List Nat)
  | 0, _ => .error .fuelOut
  | fuel + 1, n =>
    match s.parentF n with
    | none => .ok [n]
    | some p => (pathReverse s fuel p).map (fun l => n :: l)

/-- The short-circuiting membership test
`any(child is self for child in node.iter_path_reverse())` used by
`NodeMixin.__check_loop`: walk up from `n` looking for `tgt`. -/
def findInChain (s : TreeState) (tgt : Nat) : Nat → Nat → Except TreeErr Bool
  | 0, _ => .error .fuelOut
  | fuel + 1, n =>
    if n = tgt then .ok true
    else
      match s.parentF n with
      | none => .ok false
      | some p => findInChain s tgt fuel p

/-- `NodeMixin.__check_loop`: raises `LoopError` when the candidate
parent is the node itself, or when the node is found on the candidate
parent's ancestor chain. -/
def checkLoop (s : TreeState) (fuel self : Nat) : Option Nat → Except TreeErr Unit
  | none => .ok ()
  | some n =>
    if n = self then .error .loopError
    else
      match findInChain s self fuel n with
      | .error e => .error e
      | .ok true => .error .loopError
      | .ok false => .ok ()

/-- `NodeMixin.__detach`: remove `self` from the old parent's children
list (all occurrences, by identity) and clear `self`'s parent
reference.  The defensive `assert` that `self` is among the parent's
children fires as `assertFail` before any mutation. -/
def detach (s : TreeState) (self : Nat) : Option Nat → Except (TreeErr × TreeState) TreeState
  | none => .ok s
  | some par =>
    let pc := s.childrenF par
    if self ∈ pc then
      .ok ((s.withChildren par (pc.filter (fun c => c ≠ self))).withParent self none)
    else
      .error (.assertFail, s)

/-- `NodeMixin.__attach`: in strict mode assert `self` is not already a
child of the new parent, then append `self` to the parent's children
and set `self`'s parent reference. -/
def attach (s : TreeState) (self : Nat) : Option Nat → Except (TreeErr × TreeState) TreeState
  | none => .ok s
  | some par =>
    let pc := s.childrenF par
    if s.strictMode ∧ self ∈ pc then
      .error (.assertFail, s)
    else
      .ok ((s.withChildren par (pc ++ [self])).withParent self (some par))

/-- The `NodeMixin.parent` setter: reject a new parent of the wrong
concrete variant, do nothing when the new parent is identical to the
current one, otherwise cycle-check then detach from the old parent and
attach to the new one.  `fuel` bounds the cycle-check walk. -/
def set_parent (fuel : Nat) (s : TreeState) (self : Nat) (value : Option Nat) :
    Except (TreeErr × TreeState) TreeState :=
  match value with
  | some v =>
    if s.variantF v ≠ s.variantF self then
      .error (.typeError, s)
    else
      setParentCore fuel s self value
  | none => setParentCore fuel s self value
where
  /-- The part of the setter after the `isinstance` check. -/
  setParentCore (fuel : Nat) (s : TreeState) (self : Nat) (value : Option Nat) :
      Except (TreeErr × TreeState) TreeState :=
    if s.parentF self = value then .ok s
    else
      match checkLoop s fuel self value with
      | .error e => .error (e, s)
      | .ok () =>
        match detach s self (s.parentF self) with
        | .error e => .error e
        | .ok s₁ => attach s₁ self value

/-- One loop assigning `child.parent = tgt` over a list of children, as
performed by the `children` deleter (`tgt = none`) and the `children`
setter (`tgt = some p`); stops at the first failure, whose carried
state is the heap at that point. -/
def reparentAll (fuel : Nat) (tgt : Option Nat) :
    TreeState → List Nat → Except (TreeErr × TreeState) TreeState
  | s, [] => .ok s
  | s, c :: rest =>
    match set_parent fuel s c tgt with
    | .error e => .error e
    | .ok s' => reparentAll fuel tgt s' rest

/-- The `children` deleter: snapshot the children, set each child's
parent to `None`, then assert that no children remain. -/
def del_children (fuel : Nat) (s : TreeState) (p : Nat) :
    Except (TreeErr × TreeState) TreeState :=
  match reparentAll fuel none s (s.childrenF p) with
  | .error e => .error e
  | .ok s' => if s'.childrenF p = [] then .ok s' else .error (.assertFail, s')

/-- `NodeMixin.__check_children`: reject a candidate child of the wrong
variant (`TreeError`), or the same node instance appearing twice
(`TreeError` for duplicates), scanning left to right with a seen-set. -/
def checkChildren (s : TreeState) (pvar : Nat) :
    List Nat → List Nat → Except TreeErr Unit
  | [], _ => .ok ()
  | c :: rest, seen =>
    if s.variantF c ≠ pvar then .error .typeError
    else if c ∈ seen then .error .dupError
    else checkChildren s pvar rest (c :: seen)

/-- The body of the `children` setter's `try` block: delete the current
children, attach each candidate via the `parent` setter, then assert
the final children count equals the requested count. -/
def setChildrenAttempt (fuel : Nat) (s : TreeState) (p : Nat) (cs : List Nat) :
    Except (TreeErr × TreeState) TreeState :=
  match del_children fuel s p with
  | .error e => .error e
  | .ok s₁ =>
    match reparentAll fuel (some p) s₁ cs with
    | .error e => .error e
    | .ok s₂ =>
      if (s₂.childrenF p).length = cs.length then .ok s₂
      else .error (.assertFail, s₂)

/-- The `children` setter: validate the candidates, snapshot the old
children, run the attempt, and on failure roll back by re-running the
same assignment with the old children before re-raising the original
error (if the rollback itself fails, its error propagates instead).
`rfuel` bounds the rollback recursion depth, `fuel` the parent-chain
walks. -/
def set_children (fuel : Nat) :
    Nat → TreeState → Nat → List Nat → Except (TreeErr × TreeState) TreeState
  | 0, s, _, _ => .error (.fuelOut, s)
  | rfuel + 1, s, p, cs =>
    match checkChildren s (s.variantF p) cs [] with
    | .error e => .error (e, s)
    | .ok () =>
      let old := s.childrenF p
      match setChildrenAttempt fuel s p cs with
      | .ok s₂ => .ok s₂
      | .error (e, sMid) =>
        match set_children fuel rfuel sMid p old with
        | .ok sR => .error (e, sR)
        | .error e' => .error e'

/-- The child-copying loop of `new_tree`, with the recursive copy of
one child abstracted as `step`: copy the child, set the class-level
strict-mode flag to the `sm` argument, attach the copy to the copied
parent, and set the flag to the literal `True`, then continue. -/
def newTreeFold (step : TreeState → Nat → Except (TreeErr × TreeState) (Nat × TreeState))
    (wfuel newNode : Nat) (sm : Bool) :
    TreeState → List Nat → Except (TreeErr × TreeState) TreeState
  | σ, [] => .ok σ
  | σ, c :: rest =>
    match step σ c with
    | .error e => .error e
    | .ok (newC, σ₁) =>
      match set_parent wfuel (σ₁.withStrict sm) newC (some newNode) with
      | .error e => .error e
      | .ok σ₃ => newTreeFold step wfuel newNode sm (σ₃.withStrict true) rest

/-- `NodeMixin.new_tree`: copy the tree below `node`.  The
copy-constructor callback is modelled as an id map `ci` producing the
payload-only, unattached copy of each source node.  Each copied child
is attached to the copied parent with the class-level strict-mode flag
set to the `sm` argument just before the attach and set to `True`
just after; the recursive call passes the default `False` for its own
`strict_mode` argument, exactly as in the source. -/
def new_tree (ci : Nat → Nat) (wfuel : Nat) :
    Nat → TreeState → Nat → Bool → Except (TreeErr × TreeState) (Nat × TreeState)
  | 0, s, _, _ => .error (.fuelOut, s)
  | fuel + 1, s, node, sm =>
    match newTreeFold (fun σ c => new_tree ci wfuel fuel σ c false) wfuel (ci node) sm s
        (s.childrenF node) with
    | .error e => .error e
    | .ok s' => .ok (ci node, s')

/-- `NodeMixin.depth`: count parent hops to the root without
materializing the path (the `i += 1` loop over `iter_path_reverse`
yields exactly the number of hops). -/
def depth (s : TreeState) : Nat → Nat → Except TreeErr Nat
  | 0, _ => .error .fuelOut
  | fuel + 1, n =>
    match s.parentF n with
    | none => .ok 0
    | some p => (depth s fuel p).map (fun d => d + 1)

/-- `NodeMixin._path` / `NodeMixin.path`: the reversed ancestor-chain
walk, root first, the node itself last. -/
def path (s : TreeState) (fuel n : Nat) : Except TreeErr (List Nat) :=
  (pathReverse s fuel n).map List.reverse

/-- `NodeMixin.ancestors`: the parent's path, or empty for a root. -/
def ancestors (s : TreeState) (fuel n : Nat) : Except TreeErr (List Nat) :=
  match s.parentF n with
  | none => .ok []
  | some q => path s fuel q

/-! ## Traversal iterator framework -/

/-- `AbstractIter._abort_at_level`: descent past `maxlevel` is pruned;
`maxlevel` may be any integer (negative values simply always abort). -/
def abortAtLevel (level : Nat) (ml : Option Int) : Bool :=
  match ml with
  | none => false
  | some m => (level : Int) > m

/-- `AbstractIter._get_children`: drop the children whose subtree the
`stop` predicate excludes. -/
def getChildren (children : List Nat) (stp : Nat → Bool) : List Nat :=
  children.filter (fun c => !stp c)

/-- The gated start list computed by `AbstractIter.__init`: empty when
level 1 already exceeds `maxlevel`, otherwise `[node]` gated by the
`stop` predicate. -/
def gatedStart (n : Nat) (stp : Nat → Bool) (ml : Option Int) : List Nat :=
  if abortAtLevel 1 ml then [] else getChildren [n] stp

/-- Modelled from the spec: the level loop of the `LevelOrderGroupIter`
collaborator, whose source is not part of this repository.  While the
current level is nonempty it yields the level's nodes gated by the
`filter` predicate, then descends to the stop-gated children of the
whole level unless the next level exceeds `maxlevel`.  Fuelled to keep
the recursion well founded on arbitrary heaps. -/
def levelsGo (s : TreeState) (filt stp : Nat → Bool) (ml : Option Int) :
    Nat → List Nat → Nat → List (List Nat)
  | 0, _, _ => []
  | fuel + 1, children, level =>
    if children = [] then []
    else
      (children.filter filt) ::
        (if abortAtLevel (level + 1) ml then []
         else levelsGo s filt stp ml fuel
           (List.flatten (children.map (fun c => getChildren (s.childrenF c) stp)))
           (level + 1))

/-- Modelled from the spec: a full run of the `LevelOrderGroupIter`
collaborator starting at `root` — breadth-first level tuples,
shallowest level first, honoring `filter`, `stop` and `maxlevel`
(the start node itself gated exactly as `AbstractIter.__init` does). -/
def levelOrderGroup (s : TreeState) (fuel root : Nat) (filt stp : Nat → Bool)
    (ml : Option Int) : List (List Nat) :=
  levelsGo s filt stp ml fuel (gatedStart root stp ml) 1

/-- The pair-pulling loop of `ZigZagGroupIter._iter`: yield one level
unchanged, then the next reversed; when the underlying walk is
exhausted while evaluating the first pull of a pair nothing more is
yielded, and when it is exhausted on the second pull the first level
of the pair has already been yielded unreversed. -/
def zigzagPairs : List (List Nat) → List (List Nat)
  | [] => []
  | [l] => [l]
  | l₁ :: l₂ :: rest => l₁ :: l₂.reverse :: zigzagPairs rest

/-- A full run of `ZigZagGroupIter` from `n`: the gated start list as
computed by `AbstractIter.__init`, then `ZigZagGroupIter._iter` — which
asserts that exactly one gated start node exists whenever the gated
list is nonempty, builds the underlying level-grouped walk on it, and
pulls pairs of levels. -/
def zigzagRun (s : TreeState) (fuel n : Nat) (filt stp : Nat → Bool) (ml : Option Int) :
    Except TreeErr (List (List Nat)) :=
  match gatedStart n stp ml with
  | [] => .ok []
  | [c] => .ok (zigzagPairs (levelOrderGroup s fuel c filt stp ml))
  | _ => .error .assertFail

/-- The spec's description of the zig-zag output: the underlying levels
with every second one reversed — first unchanged, next reversed,
alternating (`specAltRev false`). -/
def specAltRev (rev : Bool) : List (List Nat) → List (List Nat)
  | [] => []
  | l :: rest => (if rev then l.reverse else l) :: specAltRev (!rev) rest

/-- The claim's description of the zig-zag output: pairs pulled with
the second of each pair reversed, and a last unpaired level dropped
rather than emitted. -/
def zigzagPairsDropping : List (List Nat) → List (List Nat)
  | [] => []
  | [_] => []
  | l₁ :: l₂ :: rest => l₁ :: l₂.reverse :: zigzagPairsDropping rest

/-- The state of an `AbstractIter` object over element type `α`: the
constructor arguments plus the lazily-created underlying generator
(`self.__iter`), `none` until the first pull.  The strategy function
stands for the subclass's `_iter`, receiving the gated start list and
the `filter`, `stop` and `maxlevel` arguments. -/
structure AIter (α : Type) : Type where
  node : Nat
  filt : Nat → Bool
  stp : Nat → Bool
  maxlevel : Option Int
  strategy : List Nat → (Nat → Bool) → (Nat → Bool) → Option Int → List α
  gen : Option (List α)

/-- `AbstractIter.__init__`: store the arguments and set the underlying
generator to `None`; no traversal work happens here. -/
def mkAIter {α : Type} (n : Nat) (filt stp : Nat → Bool) (ml : Option Int)
    (strategy : List Nat → (Nat → Bool) → (Nat → Bool) → Option Int → List α) :
    AIter α :=
  ⟨n, filt, stp, ml, strategy, none⟩

/-- `AbstractIter.__init`: compute the gated start list and delegate to
the strategy generator. -/
def AIter.initWalk {α : Type} (it : AIter α) : List α :=
  it.strategy (gatedStart it.node it.stp it.maxlevel) it.filt it.stp it.maxlevel

/-- The pending elements of the underlying generator: the lazily
computed walk when the generator does not exist yet, or its remaining
suspension. -/
def AIter.curList {α : Type} (it : AIter α) : List α :=
  match it.gen with
  | none => it.initWalk
  | some l => l

/-- `AbstractIter.__next__`: initialize the underlying generator on the
first pull, then pull from it; `none` signals `StopIteration`. -/
def AIter.next {α : Type} (it : AIter α) : Option α × AIter α :=
  match it.curList with
  | [] => (none, { it with gen := some [] })
  | x :: rest => (some x, { it with gen := some rest })

/-! ## Basic facts about state updates -/

@[simp] theorem withParent_parentF (s : TreeState) (n : Nat) (v : Option Nat) (m : Nat) :
    (s.withParent n v).parentF m = if m = n then v else s.parentF m := rfl

@[simp] theorem withParent_childrenF (s : TreeState) (n : Nat) (v : Option Nat) (m : Nat) :
    (s.withParent n v).childrenF m = s.childrenF m := rfl

@[simp] theorem withParent_variantF (s : TreeState) (n : Nat) (v : Option Nat) :
    (s.withParent n v).variantF = s.variantF := rfl

@[simp] theorem withParent_strictMode (s : TreeState) (n : Nat) (v : Option Nat) :
    (s.withParent n v).strictMode = s.strictMode := rfl

@[simp] theorem withChildren_childrenF (s : TreeState) (n : Nat) (l : List Nat) (m : Nat) :
    (s.withChildren n l).childrenF m = if m = n then l else s.childrenF m := rfl

@[simp] theorem withChildren_parentF (s : TreeState) (n : Nat) (l : List Nat) (m : Nat) :
    (s.withChildren n l).parentF m = s.parentF m := rfl

@[simp] theorem withChildren_variantF (s : TreeState) (n : Nat) (l : List Nat) :
    (s.withChildren n l).variantF = s.variantF := rfl

@[simp] theorem withChildren_strictMode (s : TreeState) (n : Nat) (l : List Nat) :
    (s.withChildren n l).strictMode = s.strictMode := rfl

@[simp] theorem withStrict_parentF (s : TreeState) (b : Bool) :
    (s.withStrict b).parentF = s.parentF := rfl

@[simp] theorem withStrict_childrenF (s : TreeState) (b : Bool) :
    (s.withStrict b).childrenF = s.childrenF := rfl

@[simp] theorem withStrict_variantF (s : TreeState) (b : Bool) :
    (s.withStrict b).variantF = s.variantF := rfl

@[simp] theorem withStrict_strictMode (s : TreeState) (b : Bool) :
    (s.withStrict b).strictMode = b := rfl

/-! ## Facts about the ancestor-chain walk -/

theorem pathReverse_nonempty {s : TreeState} {fuel n : Nat} {l : List Nat}
    (h : pathReverse s fuel n = .ok l) : l ≠ [] := by
  cases fuel with
  | zero => simp [pathReverse] at h
  | succ fuel =>
    unfold pathReverse at h
    split at h
    · cases h; simp
    · rename_i p hp
      cases hq : pathReverse s fuel p with
      | error e => rw [hq] at h; simp [Except.map] at h
      | ok lq => rw [hq] at h; cases h; simp

theorem pathReverse_head {s : TreeState} {fuel n : Nat} {l : List Nat}
    (h : pathReverse s fuel n = .ok l) : ∃ t, l = n :: t := by
  cases fuel with
  | zero => simp [pathReverse] at h
  | succ fuel =>
    unfold pathReverse at h
    split at h
    · cases h; exact ⟨[], rfl⟩
    · rename_i p hp
      cases hq : pathReverse s fuel p with
      | error e => rw [hq] at h; simp [Except.map] at h
      | ok lq => rw [hq] at h; cases h; exact ⟨lq, rfl⟩

theorem pathReverse_succ_of_parent {s : TreeState} {fuel n q : Nat}
    (hp : s.parentF n = some q) :
    pathReverse s (fuel + 1) n = (pathReverse s fuel q).map (fun l => n :: l) := by
  conv_lhs => unfold pathReverse
  rw [hp]

theorem pathReverse_succ_of_root {s : TreeState} {fuel n : Nat}
    (hp : s.parentF n = none) : pathReverse s (fuel + 1) n = .ok [n] := by
  unfold pathReverse; rw [hp]

theorem pathReverse_mono {s : TreeState} {fuel n : Nat} {l : List Nat}
    (h : pathReverse s fuel n = .ok l) : pathReverse s (fuel + 1) n = .ok l := by
  induction fuel generalizing n l with
  | zero => simp [pathReverse] at h
  | succ fuel ih =>
    unfold pathReverse at h
    split at h
    · rename_i hp
      rw [pathReverse_succ_of_root hp]; exact h
    · rename_i p hp
      cases hq : pathReverse s fuel p with
      | error e => rw [hq] at h; simp [Except.map] at h
      | ok lq =>
        rw [hq] at h
        rw [pathReverse_succ_of_parent hp, ih hq]
        exact h

theorem pathReverse_mem_suffix {s : TreeState} {fuel b : Nat} {l : List Nat}
    (h : pathReverse s fuel b = .ok l) {a : Nat} (ha : a ∈ l) :
    ∃ la, pathReverse s fuel a = .ok la ∧ la.length ≤ l.length := by
  induction fuel generalizing b l with
  | zero => simp [pathReverse] at h
  | succ fuel ih =>
    unfold pathReverse at h
    split at h
    · rename_i hp
      cases h
      rcases List.mem_singleton.mp ha with rfl
      exact ⟨[a], pathReverse_succ_of_root hp, le_rfl⟩
    · rename_i p hp
      cases hq : pathReverse s fuel p with
      | error e => rw [hq] at h; simp [Except.map] at h
      | ok lq =>
        rw [hq] at h; cases h
        rcases List.mem_cons.mp ha with rfl | ha'
        · refine ⟨a :: lq, ?_, le_rfl⟩
          rw [pathReverse_succ_of_parent hp, hq]; rfl
        · rcases ih hq ha' with ⟨la, hla, hlen⟩
          exact ⟨la, pathReverse_mono hla, Nat.le_succ_of_le hlen⟩

/-- Nothing on a terminating ancestor chain of `b` has `b` itself as
its parent: the chain would be cyclic and could not terminate. -/
theorem parent_not_into_chain {s : TreeState} {fuel b : Nat} {l : List Nat}
    (h : pathReverse s fuel b = .ok l) {a : Nat} (ha : a ∈ l) :
    s.parentF a ≠ some b := by
  intro hpa
  rcases pathReverse_mem_suffix h ha with ⟨la, hla, hlen⟩
  have h1 : pathReverse s (fuel + 1) a = .ok (a :: l) := by
    rw [pathReverse_succ_of_parent hpa, h]; rfl
  have h2 : pathReverse s (fuel + 1) a = .ok la := pathReverse_mono hla
  rw [h1] at h2
  cases h2
  simp at hlen

theorem findInChain_succ_self {s : TreeState} {fuel x : Nat} :
    findInChain s x (fuel + 1) x = .ok true := by
  unfold findInChain; simp

theorem findInChain_succ_of_parent {s : TreeState} {fuel n q x : Nat}
    (hnx : n ≠ x) (hp : s.parentF n = some q) :
    findInChain s x (fuel + 1) n = findInChain s x fuel q := by
  conv_lhs => unfold findInChain
  rw [if_neg hnx, hp]

theorem findInChain_succ_of_root {s : TreeState} {fuel n x : Nat}
    (hnx : n ≠ x) (hp : s.parentF n = none) :
    findInChain s x (fuel + 1) n = .ok false := by
  unfold findInChain; rw [if_neg hnx, hp]

theorem findInChain_of_mem {s : TreeState} {fuel n : Nat} {l : List Nat}
    (h : pathReverse s fuel n = .ok l) {x : Nat} (hx : x ∈ l) :
    findInChain s x fuel n = .ok true := by
  induction fuel generalizing n l with
  | zero => simp [pathReverse] at h
  | succ fuel ih =>
    by_cases hnx : n = x
    · rw [hnx]; exact findInChain_succ_self
    · unfold pathReverse at h
      split at h
      · rename_i hp
        cases h
        rcases List.mem_singleton.mp hx with rfl
        exact absurd rfl hnx
      · rename_i p hp
        cases hq : pathReverse s fuel p with
        | error e => rw [hq] at h; simp [Except.map] at h
        | ok lq =>
          rw [hq] at h; cases h
          rcases List.mem_cons.mp hx with rfl | hx'
          · exact absurd rfl hnx
          · rw [findInChain_succ_of_parent hnx hp]
            exact ih hq hx'

theorem findInChain_of_not_mem {s : TreeState} {fuel n : Nat} {l : List Nat}
    (h : pathReverse s fuel n = .ok l) {x : Nat} (hx : x ∉ l) :
    findInChain s x fuel n = .ok false := by
  induction fuel generalizing n l with
  | zero => simp [pathReverse] at h
  | succ fuel ih =>
    have hnx : n ≠ x := by
      rcases pathReverse_head h with ⟨t, rfl⟩
      intro he; exact hx (he ▸ List.mem_cons_self n t)
    unfold pathReverse at h
    split at h
    · rename_i hp
      exact findInChain_succ_of_root hnx hp
    · rename_i p hp
      cases hq : pathReverse s fuel p with
      | error e => rw [hq] at h; simp [Except.map] at h
      | ok lq =>
        rw [hq] at h; cases h
        rw [findInChain_succ_of_parent hnx hp]
        exact ih hq (fun hm => hx (List.mem_cons_of_mem _ hm))

/-- A chain stays intact in a mutated state whose parent references
agree with the old state on every chain member. -/
theorem pathReverse_agree {s s' : TreeState} {fuel n : Nat} {l : List Nat}
    (h : pathReverse s fuel n = .ok l)
    (hag : ∀ x ∈ l, s'.parentF x = s.parentF x) :
    pathReverse s' fuel n = .ok l := by
  induction fuel generalizing n l with
  | zero => simp [pathReverse] at h
  | succ fuel ih =>
    unfold pathReverse at h
    split at h
    · rename_i hp
      cases h
      rw [@pathReverse_succ_of_root s' fuel n (by rw [hag n (by simp)]; exact hp)]
    · rename_i p hp
      cases hq : pathReverse s fuel p with
      | error e => rw [hq] at h; simp [Except.map] at h
      | ok lq =>
        rw [hq] at h; cases h
        rw [@pathReverse_succ_of_parent s' fuel n p (by rw [hag n (by simp)]; exact hp),
          ih hq (fun x hx => hag x (List.mem_cons_of_mem _ hx))]
        rfl

/-- Every non-head chain member is the parent of some chain member. -/
theorem chain_member_has_child {s : TreeState} {fuel n : Nat} {l : List Nat}
    (h : pathReverse s fuel n = .ok l) {c : Nat} (hc : c ∈ l) (hcn : c ≠ n) :
    ∃ y ∈ l, s.parentF y = some c := by
  induction fuel generalizing n l with
  | zero => simp [pathReverse] at h
  | succ fuel ih =>
    unfold pathReverse at h
    split at h
    · rename_i hp
      cases h
      rcases List.mem_singleton.mp hc with rfl
      exact absurd rfl hcn
    · rename_i p hp
      cases hq : pathReverse s fuel p with
      | error e => rw [hq] at h; simp [Except.map] at h
      | ok lq =>
        rw [hq] at h; cases h
        rcases List.mem_cons.mp hc with rfl | hc'
        · exact absurd rfl hcn
        · by_cases hcq : c = p
          · exact ⟨n, by simp, by rw [hp, hcq]⟩
          · rcases ih hq hc' hcq with ⟨y, hy, hyp⟩
            exact ⟨y, List.mem_cons_of_mem _ hy, hyp⟩

/-! ## Concrete states used by witnesses and counterexamples -/

/-- Build a concrete finite heap from association lists: ids beyond the
lists are blank (no parent, no children), and all nodes share variant
`0`. -/
def mkState (ps : List (Option Nat)) (cs : List (List Nat)) (sm : Bool) : TreeState :=
  { parentF := fun n => ps.getD n none
    childrenF := fun n => cs.getD n []
    variantF := fun _ => 0
    strictMode := sm }

/-- The 9-node doctest tree `f(b(a, d(c, e)), g(i(h)))` with ids
`f=0, b=1, a=2, d=3, c=4, e=5, g=6, i=7, h=8`. -/
def s9 : TreeState :=
  mkState [none, some 0, some 1, some 1, some 3, some 3, some 0, some 6, some 7]
    [[1, 6], [2, 3], [], [4, 5], [], [], [7], [8], []] true

/-- Node names of the doctest tree. -/
def n9 : Nat → String := fun n => ["f", "b", "a", "d", "c", "e", "g", "i", "h"].getD n ""

/-- A single childless root node `0`. -/
def s1 : TreeState := mkState [none] [[]] true

/-- A two-node tree `0 ← 1` whose variant-wide strict-mode flag is
`false` before any call. -/
def sC4 : TreeState := mkState [none, some 0] [[1], []] false

/-- A two-node tree: node `1` is the only child of root `0`. -/
def sW1 : TreeState := mkState [none, some 0] [[1], []] true

/-- Three nodes: `1` is the only child of `2`; `0` is a blank root. -/
def sW5 : TreeState := mkState [none, some 2, none] [[], [], [1]] true

/-- Root `0` with single child `1`; `2` is a blank unattached node. -/
def sW2 : TreeState := mkState [none, some 0, none] [[1], [], []] true

/-- Root `0` with current children `[1]`; `2` and `3` blank fresh nodes. -/
def sW6 : TreeState := mkState [none, some 0, none, none] [[1], [], [], []] true

/-- Projection of a `new_tree` result onto the final strict-mode flag. -/
def strictOf : Except (TreeErr × TreeState) (Nat × TreeState) → Option Bool
  | .ok r => some r.2.strictMode
  | .error _ => none

/-- Projection of a successful mutation onto one children list. -/
def okChildren (r : Except (TreeErr × TreeState) TreeState) (p : Nat) : Option (List Nat) :=
  match r with
  | .ok s => some (s.childrenF p)
  | .error _ => none

/-- Projection of a successful mutation onto one occurrence count in a
children list. -/
def okCount (r : Except (TreeErr × TreeState) TreeState) (x p : Nat) : Option Nat :=
  match r with
  | .ok s => some (List.count x (s.childrenF p))
  | .error _ => none

/-- Projection of a successful mutation onto one parent reference. -/
def okParent (r : Except (TreeErr × TreeState) TreeState) (x : Nat) : Option (Option Nat) :=
  match r with
  | .ok s => some (s.parentF x)
  | .error _ => none

/-- Projection of a failed mutation onto one children list of the
carried (post-failure) state. -/
def errChildren (r : Except (TreeErr × TreeState) TreeState) (p : Nat) : Option (List Nat) :=
  match r with
  | .error (_, s) => some (s.childrenF p)
  | .ok _ => none

/-- Projection of a failed mutation onto one parent reference of the
carried (post-failure) state. -/
def errParent (r : Except (TreeErr × TreeState) TreeState) (x : Nat) : Option (Option Nat) :=
  match r with
  | .error (_, s) => some (s.parentF x)
  | .ok _ => none

/-! ## Zig-zag refinement (C3, C7, C9) -/

theorem zigzagPairs_eq_specAltRev : ∀ ls : List (List Nat), zigzagPairs ls = specAltRev false ls
  | [] => rfl
  | [l] => rfl
  | l₁ :: l₂ :: rest => by
    have ih := zigzagPairs_eq_specAltRev rest
    simp only [zigzagPairs, specAltRev]
    simp [ih]

theorem gatedStart_eq_nil_or_self (n : Nat) (stp : Nat → Bool) (ml : Option Int) :
    gatedStart n stp ml = [] ∨ gatedStart n stp ml = [n] := by
  unfold gatedStart getChildren
  split
  · exact Or.inl rfl
  · cases h : stp n <;> simp [h]

theorem levelsGo_nil (s : TreeState) (filt stp : Nat → Bool) (ml : Option Int)
    (fuel level : Nat) : levelsGo s filt stp ml fuel [] level = [] := by
  cases fuel <;> simp [levelsGo]

/-- C3 (counterexample): on a tree with a single level, the zig-zag
walk emits the unpaired level (the doctest with `maxlevel=3` shows the
same), while the claim predicts that the last unpaired level is
dropped, i.e. an empty output here. -/
theorem C3_counterexample_unpaired_level :
    zigzagRun s1 4 0 (fun _ => true) (fun _ => false) none = .ok [[0]] ∧
    zigzagPairsDropping (levelOrderGroup s1 4 0 (fun _ => true) (fun _ => false) none) = [] ∧
    ([[0]] : List (List Nat)) ≠ ([] : List (List Nat)) :=
  ⟨rfl, rfl, by decide⟩

/-- C3 (amended): for every tree and every choice of filter, stop
predicate and maxlevel, the zig-zag grouped walk yields exactly the
level tuples of the underlying level-grouped walk with every second
level reversed (first unchanged, next reversed, alternating), pulled
in pairs; when the underlying walk is exhausted mid-pair the last
unpaired level has already been emitted unreversed, not dropped. -/
theorem C3_zigzag_alternating_levels (s : TreeState) (fuel n : Nat)
    (filt stp : Nat → Bool) (ml : Option Int) :
    zigzagRun s fuel n filt stp ml =
      .ok (specAltRev false (levelOrderGroup s fuel n filt stp ml)) := by
  unfold zigzagRun
  rcases gatedStart_eq_nil_or_self n stp ml with h | h <;> rw [h]
  · simp [levelOrderGroup, h, levelsGo_nil, specAltRev]
  · simp [zigzagPairs_eq_specAltRev]

/-- C7: on the literal 9-node doctest tree `f(b(a, d(c, e)), g(i(h)))`,
the zig-zag strategy yields, by name, `[(f), (g,b), (a,d,i), (h,e,c)]`;
with `maxlevel = 3` only the first three tuples; with a filter
excluding `e` and `g` it yields `[(f), (b), (a,d,i), (h,c)]`; with a
stop predicate matching `d` it yields `[(f), (g,b), (a,i), (h)]`. -/
theorem C7_zigzag_doctest :
    (zigzagRun s9 12 0 (fun _ => true) (fun _ => false) none).map
        (List.map (List.map n9)) =
      .ok [["f"], ["g", "b"], ["a", "d", "i"], ["h", "e", "c"]] ∧
    (zigzagRun s9 12 0 (fun _ => true) (fun _ => false) (some 3)).map
        (List.map (List.map n9)) =
      .ok [["f"], ["g", "b"], ["a", "d", "i"]] ∧
    (zigzagRun s9 12 0 (fun n => !(n9 n == "e" || n9 n == "g")) (fun _ => false) none).map
        (List.map (List.map n9)) =
      .ok [["f"], ["b"], ["a", "d", "i"], ["h", "c"]] ∧
    (zigzagRun s9 12 0 (fun _ => true) (fun n => n9 n == "d") none).map
        (List.map (List.map n9)) =
      .ok [["f"], ["g", "b"], ["a", "i"], ["h"]] :=
  ⟨rfl, rfl, rfl, rfl⟩

/-- C9: when the start node satisfies the stop predicate, or maxlevel
is below 1 (including 0 and negatives), the zig-zag iteration yields
nothing and terminates normally — in particular the internal
one-start-node assertion is never reached, being guarded by the
non-emptiness test on the gated children list. -/
theorem C9_stopped_or_shallow_yields_nothing (s : TreeState) (fuel n : Nat)
    (filt stp : Nat → Bool) (ml : Option Int)
    (h : stp n = true ∨ ∃ m, ml = some m ∧ m < 1) :
    zigzagRun s fuel n filt stp ml = .ok [] := by
  have hg : gatedStart n stp ml = [] := by
    rcases h with h | ⟨m, rfl, hm⟩
    · unfold gatedStart getChildren
      split
      · rfl
      · simp [h]
    · unfold gatedStart
      have ha : abortAtLevel 1 (some m) = true := by
        simp [abortAtLevel]; omega
      rw [if_pos ha]
  unfold zigzagRun
  rw [hg]

/-- C9 witness: a stopped start node yields the empty walk. -/
theorem C9_witness :
    ((fun _ => true : Nat → Bool) 0 = true ∨ ∃ m, (none : Option Int) = some m ∧ m < 1) ∧
    zigzagRun s1 3 0 (fun _ => true) (fun _ => true) none = .ok [] :=
  ⟨Or.inl rfl,
    C9_stopped_or_shallow_yields_nothing s1 3 0 (fun _ => true) (fun _ => true) none
      (Or.inl rfl)⟩

/-! ## Iterator laziness and exhaustion (C8) -/

theorem AIter_next_of_curList_nil {α : Type} {it : AIter α} (h : it.curList = []) :
    it.next = (none, { it with gen := some [] }) := by
  unfold AIter.next; rw [h]

theorem AIter_next_of_curList_cons {α : Type} {it : AIter α} {x : α} {rest : List α}
    (h : it.curList = x :: rest) :
    it.next = (some x, { it with gen := some rest }) := by
  unfold AIter.next; rw [h]

/-- C8: constructing a traversal iterator does no traversal work (the
underlying generator is `none` until the first pull, and the first pull
computes the gated start children and delegates to the strategy
generator), and once a pull has signalled end-of-sequence, every
subsequent pull signals it again on an unchanged iterator — no element
is ever yielded after exhaustion. -/
theorem C8_lazy_init_and_stable_exhaustion :
    (∀ (α : Type) (n : Nat) (filt stp : Nat → Bool) (ml : Option Int)
        (strat : List Nat → (Nat → Bool) → (Nat → Bool) → Option Int → List α),
        (mkAIter n filt stp ml strat).gen = none ∧
          (mkAIter n filt stp ml strat).next.1 =
            (strat (gatedStart n stp ml) filt stp ml).head?) ∧
    (∀ (α : Type) (it : AIter α), it.next.1 = none → it.next.2.next = (none, it.next.2)) := by
  constructor
  · intro α n filt stp ml strat
    refine ⟨rfl, ?_⟩
    have hcur : (mkAIter n filt stp ml strat).curList =
        strat (gatedStart n stp ml) filt stp ml := rfl
    cases hl : strat (gatedStart n stp ml) filt stp ml with
    | nil => rw [AIter_next_of_curList_nil (hcur.trans hl)]; rfl
    | cons x rest => rw [AIter_next_of_curList_cons (hcur.trans hl)]; rfl
  · intro α it h
    cases hl : it.curList with
    | nil =>
      rw [AIter_next_of_curList_nil hl]
      exact AIter_next_of_curList_nil rfl
    | cons x rest =>
      rw [AIter_next_of_curList_cons hl] at h
      simp at h

/-- C8 witness: an iterator over an empty strategy signals
end-of-sequence, and keeps signalling it. -/
theorem C8_witness :
    (mkAIter 0 (fun _ => true) (fun _ => false) none
        (fun _ _ _ _ => ([] : List Nat))).next.1 = none ∧
    (mkAIter 0 (fun _ => true) (fun _ => false) none
        (fun _ _ _ _ => ([] : List Nat))).next.2.next =
      (none, (mkAIter 0 (fun _ => true) (fun _ => false) none
        (fun _ _ _ _ => ([] : List Nat))).next.2) :=
  ⟨rfl, C8_lazy_init_and_stable_exhaustion.2 Nat
    (mkAIter 0 (fun _ => true) (fun _ => false) none (fun _ _ _ _ => ([] : List Nat))) rfl⟩

/-! ## Strict-mode flag behavior of `new_tree` (C4) -/

theorem newTreeFold_ok_strict
    (step : TreeState → Nat → Except (TreeErr × TreeState) (Nat × TreeState))
    (wfuel newNode : Nat) (sm : Bool) :
    ∀ (l : List Nat) (σ σ' : TreeState),
      newTreeFold step wfuel newNode sm σ l = .ok σ' →
      (l = [] → σ' = σ) ∧ (l ≠ [] → σ'.strictMode = true) := by
  intro l
  induction l with
  | nil =>
    intro σ σ' h
    unfold newTreeFold at h
    cases h
    exact ⟨fun _ => rfl, fun hne => absurd rfl hne⟩
  | cons c rest ih =>
    intro σ σ' h
    unfold newTreeFold at h
    split at h
    · cases h
    · rename_i newC s₁ h1
      split at h
      · cases h
      · rename_i s₃ h2
        refine ⟨fun hc => absurd hc (List.cons_ne_nil c rest), fun _ => ?_⟩
        rcases ih (s₃.withStrict true) σ' h with ⟨hnil, hne⟩
        by_cases hr : rest = []
        · rw [hnil hr]; rfl
        · exact hne hr

/-- C4 (amended): after a successful `new_tree(node, copy_info,
strict_mode)` call, the variant's strict-mode flag is `True` whenever
`node` has at least one child (each attach sets the flag to the
`strict_mode` argument just before and to the literal `True` just
after, so the last attach leaves `True` behind — not the pre-call
value), and the flag is untouched when `node` has no children. -/
theorem C4_strict_flag_final (ci : Nat → Nat) (wfuel fuel : Nat) (s : TreeState)
    (node : Nat) (sm : Bool) (r : Nat × TreeState)
    (h : new_tree ci wfuel fuel s node sm = .ok r) :
    (s.childrenF node = [] → r.2.strictMode = s.strictMode) ∧
    (s.childrenF node ≠ [] → r.2.strictMode = true) := by
  cases fuel with
  | zero => unfold new_tree at h; cases h
  | succ fuel =>
    unfold new_tree at h
    split at h
    · cases h
    · rename_i s' hg
      cases h
      rcases newTreeFold_ok_strict (fun σ c => new_tree ci wfuel fuel σ c false) wfuel
        (ci node) sm (s.childrenF node) s s' hg with ⟨h1, h2⟩
      exact ⟨fun hc => by rw [h1 hc], h2⟩

/-- C4 (counterexample): copying the two-node tree of `sC4` while the
pre-call flag is `false` leaves the flag at `true` after the call, so
the flag is not restored to the value it had immediately before the
call. -/
theorem C4_counterexample_flag_not_restored :
    sC4.strictMode = false ∧
    strictOf (new_tree (fun n => n + 2) 6 6 sC4 0 false) = some true :=
  ⟨rfl, rfl⟩

/-- C4 witness: the amended flag behavior at the concrete copy. -/
theorem C4_witness :
    sC4.childrenF 0 ≠ [] ∧
    strictOf (new_tree (fun n => n + 2) 6 6 sC4 0 false) = some true := by
  refine ⟨by decide, ?_⟩
  have h := (C4_strict_flag_final (fun n => n + 2) 6 6 sC4 0 false _ rfl).2 (by decide)
  exact congrArg some h

/-! ## Depth, path and ancestors agreement (C10) -/

theorem depth_succ_of_root {s : TreeState} {fuel n : Nat} (hp : s.parentF n = none) :
    depth s (fuel + 1) n = .ok 0 := by
  conv_lhs => unfold depth
  rw [hp]

theorem depth_succ_of_parent {s : TreeState} {fuel n q : Nat} (hp : s.parentF n = some q) :
    depth s (fuel + 1) n = (depth s fuel q).map (fun d => d + 1) := by
  conv_lhs => unfold depth
  rw [hp]

theorem ancestors_of_root {s : TreeState} {fuel n : Nat} (hp : s.parentF n = none) :
    ancestors s fuel n = .ok [] := by
  unfold ancestors; rw [hp]

theorem ancestors_of_parent {s : TreeState} {fuel n q : Nat} (hp : s.parentF n = some q) :
    ancestors s fuel n = path s fuel q := by
  unfold ancestors; rw [hp]

theorem depth_eq_chain_length {s : TreeState} {fuel n : Nat} {l : List Nat}
    (h : pathReverse s fuel n = .ok l) : depth s fuel n = .ok (l.length - 1) := by
  induction fuel generalizing n l with
  | zero => simp [pathReverse] at h
  | succ fuel ih =>
    unfold pathReverse at h
    split at h
    · rename_i hp
      cases h
      rw [depth_succ_of_root hp]
      rfl
    · rename_i p hp
      cases hq : pathReverse s fuel p with
      | error e => rw [hq] at h; simp [Except.map] at h
      | ok lq =>
        rw [hq] at h; cases h
        rw [depth_succ_of_parent hp, ih hq]
        have hne := pathReverse_nonempty hq
        cases lq with
        | nil => exact absurd rfl hne
        | cons a t => simp [Except.map]

/-- C10: for every node whose ancestor-chain walk terminates, the
hop-counting `depth` equals the length of `path` minus one, and `path`
is exactly `ancestors` followed by the node itself — the hop-counting
implementation, the materialized path and the ancestors query are
mutually consistent. -/
theorem C10_depth_path_ancestors (s : TreeState) (fuel n : Nat) (l : List Nat)
    (h : pathReverse s fuel n = .ok l) :
    path s fuel n = .ok l.reverse ∧
    ancestors s fuel n = .ok l.reverse.dropLast ∧
    l.reverse = l.reverse.dropLast ++ [n] ∧
    depth s fuel n = .ok (l.reverse.length - 1) := by
  have hd := depth_eq_chain_length h
  have hpath : path s fuel n = .ok l.reverse := by
    unfold path; rw [h]; rfl
  cases fuel with
  | zero => simp [pathReverse] at h
  | succ fuel =>
    unfold pathReverse at h
    split at h
    · rename_i hp
      cases h
      refine ⟨hpath, ?_, by simp, by simpa using hd⟩
      rw [ancestors_of_root hp]
      rfl
    · rename_i p hp
      cases hq : pathReverse s fuel p with
      | error e => rw [hq] at h; simp [Except.map] at h
      | ok lq =>
        rw [hq] at h; cases h
        have hda : (n :: lq).reverse.dropLast = lq.reverse := by
          simp [List.dropLast_concat]
        refine ⟨hpath, ?_, ?_, by simpa using hd⟩
        · rw [ancestors_of_parent hp, hda]
          unfold path
          rw [pathReverse_mono hq]
          rfl
        · rw [hda]; simp

/-- C10 witness: the chain of node `c` (id 4) in the doctest tree. -/
theorem C10_witness :
    pathReverse s9 6 4 = .ok [4, 3, 1, 0] ∧
    path s9 6 4 = .ok [0, 1, 3, 4] ∧
    ancestors s9 6 4 = .ok [0, 1, 3] ∧
    depth s9 6 4 = .ok 3 := by
  have h := C10_depth_path_ancestors s9 6 4 [4, 3, 1, 0] rfl
  exact ⟨rfl, h.1, h.2.1, h.2.2.2⟩

/-! ## Unfolding equations for the parent setter -/

theorem set_parent_some (fuel : Nat) (s : TreeState) (self v : Nat) :
    set_parent fuel s self (some v) =
      if s.variantF v ≠ s.variantF self then .error (.typeError, s)
      else set_parent.setParentCore fuel s self (some v) := rfl

theorem set_parent_none (fuel : Nat) (s : TreeState) (self : Nat) :
    set_parent fuel s self none = set_parent.setParentCore fuel s self none := rfl

theorem setParentCore_eq (fuel : Nat) (s : TreeState) (self : Nat) (value : Option Nat) :
    set_parent.setParentCore fuel s self value =
      if s.parentF self = value then .ok s
      else
        match checkLoop s fuel self value with
        | .error e => .error (e, s)
        | .ok () =>
          match detach s self (s.parentF self) with
          | .error e => .error e
          | .ok s₁ => attach s₁ self value := rfl

theorem checkLoop_none (s : TreeState) (fuel self : Nat) :
    checkLoop s fuel self none = .ok () := rfl

theorem checkLoop_some (s : TreeState) (fuel self n : Nat) :
    checkLoop s fuel self (some n) =
      if n = self then .error .loopError
      else
        match findInChain s self fuel n with
        | .error e => .error e
        | .ok true => .error .loopError
        | .ok false => .ok () := rfl

theorem detach_none (s : TreeState) (self : Nat) : detach s self none = .ok s := rfl

theorem detach_some (s : TreeState) (self par : Nat) :
    detach s self (some par) =
      if self ∈ s.childrenF par then
        .ok ((s.withChildren par ((s.childrenF par).filter (fun c => c ≠ self))).withParent
          self none)
      else .error (.assertFail, s) := rfl

theorem attach_none (s : TreeState) (self : Nat) : attach s self none = .ok s := rfl

theorem attach_some (s : TreeState) (self par : Nat) :
    attach s self (some par) =
      if s.strictMode ∧ self ∈ s.childrenF par then .error (.assertFail, s)
      else .ok ((s.withChildren par (s.childrenF par ++ [self])).withParent self (some par)) :=
  rfl

/-! ## Cycle prevention (C1) -/

/-- C1: for every node `a` and every node `b` in `a`'s subtree — `b`
itself or a node whose ancestor-chain walk meets `a` — setting
`a.parent = b` raises `LoopError`, and the error carries the input
state unchanged: the cycle check runs before any detach or attach, so
every node's parent reference and children list are exactly as before
the call. -/
theorem C1_loop_error_tree_unchanged (s : TreeState) (fuel a b : Nat) (l : List Nat)
    (hterm : pathReverse s fuel b = .ok l) (hmem : a ∈ l)
    (hvar : s.variantF b = s.variantF a) :
    set_parent fuel s a (some b) = .error (.loopError, s) := by
  have hnoop : s.parentF a ≠ some b := parent_not_into_chain hterm hmem
  rw [set_parent_some, if_neg (by simp [hvar]), setParentCore_eq, if_neg hnoop]
  have hcl : checkLoop s fuel a (some b) = .error .loopError := by
    rw [checkLoop_some]
    by_cases hba : b = a
    · rw [if_pos hba]
    · rw [if_neg hba, findInChain_of_mem hterm hmem]
  rw [hcl]

/-- C1 witness: with `1`'s parent `0`, setting `0.parent = 1` fails
with `LoopError` and the carried state is the input state itself. -/
theorem C1_witness :
    (0 ∈ [1, 0] ∧ sW1.variantF 1 = sW1.variantF 0) ∧
    set_parent 3 sW1 0 (some 1) = .error (.loopError, sW1) :=
  ⟨⟨by decide, rfl⟩,
    C1_loop_error_tree_unchanged sW1 3 0 1 [1, 0] rfl (by decide) rfl⟩

/-! ## Single ownership after reparenting (C5) -/

/-- C5: in a consistent heap (`x` is among `p`'s children exactly once
when `p` is already its parent and not at all otherwise, and `x` is
among its current parent's children), after a successful
`x.parent = p`: `x` appears in `p.children` exactly once, `x.parent`
is `p`, and `x` no longer appears in the children of its previous
parent when that parent differs from `p`. -/
theorem C5_single_ownership (s : TreeState) (fuel x p : Nat) (s' : TreeState)
    (hcnt1 : s.parentF x = some p → List.count x (s.childrenF p) = 1)
    (hcnt2 : s.parentF x ≠ some p → x ∉ s.childrenF p)
    (hq : ∀ q, s.parentF x = some q → x ∈ s.childrenF q)
    (h : set_parent fuel s x (some p) = .ok s') :
    List.count x (s'.childrenF p) = 1 ∧ s'.parentF x = some p ∧
      ∀ q, s.parentF x = some q → q ≠ p → x ∉ s'.childrenF q := by
  rw [set_parent_some] at h
  by_cases hv : s.variantF p ≠ s.variantF x
  · rw [if_pos hv] at h; cases h
  · rw [if_neg hv, setParentCore_eq] at h
    by_cases hnp : s.parentF x = some p
    · rw [if_pos hnp] at h
      cases h
      refine ⟨hcnt1 hnp, hnp, fun q hq1 hq2 => ?_⟩
      exact absurd (Option.some.inj (hq1.symm.trans hnp)) hq2
    · rw [if_neg hnp] at h
      split at h
      · cases h
      · split at h
        · cases h
        · rename_i s₁ hdet
          have hxp : x ∉ s.childrenF p := hcnt2 hnp
          cases hpx : s.parentF x with
          | none =>
            rw [hpx, detach_none] at hdet
            cases hdet
            rw [attach_some] at h
            by_cases hst : s.strictMode ∧ x ∈ s.childrenF p
            · rw [if_pos hst] at h; cases h
            · rw [if_neg hst] at h
              cases h
              refine ⟨?_, by simp, fun q hq1 => Option.noConfusion hq1⟩
              simp [List.count_append, List.count_eq_zero.mpr hxp]
          | some q =>
            have hqp : q ≠ p := fun he => hnp (hpx.trans (by rw [he]))
            rw [hpx, detach_some, if_pos (hq q hpx)] at hdet
            cases hdet
            rw [attach_some] at h
            simp only [withParent_childrenF, withChildren_childrenF,
              withParent_strictMode, withChildren_strictMode, if_neg (Ne.symm hqp)] at h
            by_cases hst : s.strictMode ∧ x ∈ s.childrenF p
            · rw [if_pos hst] at h; cases h
            · rw [if_neg hst] at h
              cases h
              refine ⟨?_, by simp, fun q' hq1 hq2 => ?_⟩
              · simp [if_neg hqp, List.count_append,
                  List.count_eq_zero.mpr hxp]
              · cases Option.some.inj hq1
                simp [if_neg hq2, List.mem_filter]

/-- C5 witness: moving node `1` from parent `2` to parent `0`. -/
theorem C5_witness :
    okCount (set_parent 3 sW5 1 (some 0)) 1 0 = some 1 ∧
    okParent (set_parent 3 sW5 1 (some 0)) 1 = some (some 0) ∧
    okCount (set_parent 3 sW5 1 (some 0)) 1 2 = some 0 := by
  have h := C5_single_ownership sW5 3 1 0 _
    (fun hc => by cases hc) (fun _ => by decide)
    (fun q hq1 => by
      rw [show sW5.parentF 1 = some 2 from rfl] at hq1
      cases hq1
      decide)
    rfl
  exact ⟨congrArg some h.1, congrArg some h.2.1,
    congrArg some (List.count_eq_zero.mpr (h.2.2 2 rfl (by decide)))⟩

/-! ## Characterization of one successful attach step -/

/-- The state after `__detach` ran for `self` (identity when `self` had
no parent). -/
def detachedState (s : TreeState) (self : Nat) : TreeState :=
  match s.parentF self with
  | none => s
  | some q =>
    (s.withChildren q ((s.childrenF q).filter (fun c => c ≠ self))).withParent self none

/-- The state after a full `self.parent = p` mutation: detach from the
old parent, then append to `p`'s children and point `self` at `p`. -/
def stepState (σ : TreeState) (c p : Nat) : TreeState :=
  ((detachedState σ c).withChildren p ((detachedState σ c).childrenF p ++ [c])).withParent
    c (some p)

theorem detachedState_childrenF_ne {σ : TreeState} {c : Nat} (m : Nat)
    (hm : σ.parentF c ≠ some m) :
    (detachedState σ c).childrenF m = σ.childrenF m := by
  unfold detachedState
  cases hp : σ.parentF c with
  | none => rfl
  | some q =>
    have : m ≠ q := fun he => hm (by rw [he, hp])
    simp [if_neg this]

theorem detachedState_parentF_ne {σ : TreeState} {c : Nat} (m : Nat) (hm : m ≠ c) :
    (detachedState σ c).parentF m = σ.parentF m := by
  unfold detachedState
  cases hp : σ.parentF c with
  | none => rfl
  | some q => simp [if_neg hm]

theorem detachedState_variantF (σ : TreeState) (c : Nat) :
    (detachedState σ c).variantF = σ.variantF := by
  unfold detachedState
  cases hp : σ.parentF c <;> rfl

theorem detachedState_strictMode (σ : TreeState) (c : Nat) :
    (detachedState σ c).strictMode = σ.strictMode := by
  unfold detachedState
  cases hp : σ.parentF c <;> rfl

theorem stepState_childrenF_p {σ : TreeState} {c p : Nat} (hnp : σ.parentF c ≠ some p) :
    (stepState σ c p).childrenF p = σ.childrenF p ++ [c] := by
  unfold stepState
  simp [detachedState_childrenF_ne p hnp]

theorem stepState_parentF_c (σ : TreeState) (c p : Nat) :
    (stepState σ c p).parentF c = some p := by
  unfold stepState; simp

theorem stepState_parentF_ne {σ : TreeState} {c p : Nat} (m : Nat) (hm : m ≠ c) :
    (stepState σ c p).parentF m = σ.parentF m := by
  unfold stepState
  simp [if_neg hm, detachedState_parentF_ne m hm]

theorem stepState_childrenF_mem {σ : TreeState} {c p : Nat} (m x : Nat) (hmp : m ≠ p)
    (hxc : x ≠ c) : x ∈ (stepState σ c p).childrenF m ↔ x ∈ σ.childrenF m := by
  unfold stepState
  simp only [withParent_childrenF, withChildren_childrenF, if_neg hmp]
  unfold detachedState
  cases hp : σ.parentF c with
  | none => rfl
  | some q =>
    by_cases hmq : m = q
    · subst hmq
      simp [List.mem_filter, hxc]
    · simp [if_neg hmq]

theorem stepState_variantF (σ : TreeState) (c p : Nat) :
    (stepState σ c p).variantF = σ.variantF := by
  unfold stepState
  simp [detachedState_variantF]

theorem stepState_strictMode (σ : TreeState) (c p : Nat) :
    (stepState σ c p).strictMode = σ.strictMode := by
  unfold stepState
  simp [detachedState_strictMode]

/-- A `c.parent = p` assignment fails with `LoopError` exactly at the
cycle check — leaving the state untouched — when `c` is `p` itself or
a member of `p`'s (terminating) ancestor chain. -/
theorem set_parent_attach_loop {σ : TreeState} {fuel c p : Nat} {pl : List Nat}
    (hchain : pathReverse σ fuel p = .ok pl)
    (hv : σ.variantF c = σ.variantF p)
    (hnp : σ.parentF c ≠ some p)
    (hloop : c = p ∨ c ∈ pl) :
    set_parent fuel σ c (some p) = .error (.loopError, σ) := by
  rw [set_parent_some, if_neg (by simp [hv]), setParentCore_eq, if_neg hnp]
  have hcl : checkLoop σ fuel c (some p) = .error .loopError := by
    rw [checkLoop_some]
    by_cases hpc : p = c
    · rw [if_pos hpc]
    · rcases hloop with rfl | hmem
      · exact absurd rfl (Ne.symm hpc)
      · rw [if_neg hpc, findInChain_of_mem hchain hmem]
  rw [hcl]

/-- A `c.parent = p` assignment succeeds, producing exactly
`stepState σ c p`, when `c` is neither `p` nor on `p`'s (terminating)
ancestor chain, is of `p`'s variant, is listed in its current parent's
children, and is not among `p`'s children. -/
theorem set_parent_attach_ok {σ : TreeState} {fuel c p : Nat} {pl : List Nat}
    (hchain : pathReverse σ fuel p = .ok pl)
    (hv : σ.variantF c = σ.variantF p)
    (hnp : σ.parentF c ≠ some p)
    (hmem : ∀ q, σ.parentF c = some q → c ∈ σ.childrenF q)
    (hnotin : c ∉ σ.childrenF p)
    (hcp : c ≠ p) (hcpl : c ∉ pl) :
    set_parent fuel σ c (some p) = .ok (stepState σ c p) := by
  rw [set_parent_some, if_neg (by simp [hv]), setParentCore_eq, if_neg hnp]
  have hcl : checkLoop σ fuel c (some p) = .ok () := by
    rw [checkLoop_some, if_neg (Ne.symm hcp), findInChain_of_not_mem hchain hcpl]
  rw [hcl]
  have hdet : detach σ c (σ.parentF c) = .ok (detachedState σ c) := by
    unfold detachedState
    cases hp : σ.parentF c with
    | none => rfl
    | some q => rw [detach_some, if_pos (hmem q hp)]
  rw [hdet]
  have hst : ¬((detachedState σ c).strictMode = true ∧
      c ∈ (detachedState σ c).childrenF p) := by
    rw [detachedState_childrenF_ne p hnp]
    exact fun hc => hnotin hc.2
  show attach (detachedState σ c) c (some p) = .ok (stepState σ c p)
  rw [attach_some, if_neg hst]
  rfl

theorem detachedState_parentF_self {σ : TreeState} {o q : Nat} (hp : σ.parentF o = some q) :
    (detachedState σ o).parentF o = none := by
  unfold detachedState; rw [hp]; simp

theorem reparentAll_cons (fuel : Nat) (tgt : Option Nat) (s : TreeState) (c : Nat)
    (rest : List Nat) :
    reparentAll fuel tgt s (c :: rest) =
      match set_parent fuel s c tgt with
      | .error e => .error e
      | .ok s' => reparentAll fuel tgt s' rest := rfl

/-- Detaching a child (`o.parent = None`) succeeds and produces exactly
`detachedState σ o` when `o` has a parent and is listed among that
parent's children. -/
theorem set_parent_detach_ok (σ : TreeState) (fuel o q : Nat)
    (hp : σ.parentF o = some q) (hmem : o ∈ σ.childrenF q) :
    set_parent fuel σ o none = .ok (detachedState σ o) := by
  rw [set_parent_none, setParentCore_eq, if_neg (by simp [hp])]
  have hdet : detach σ o (σ.parentF o) = .ok (detachedState σ o) := by
    unfold detachedState
    rw [hp, detach_some, if_pos hmem]
  rw [hdet]
  show attach (detachedState σ o) o none = .ok (detachedState σ o)
  exact attach_none _ _

/-- Full specification of the `children` deleter loop: on a parent
whose children list is duplicate-free and consistent (each child points
back at the parent), detaching every child succeeds, leaves the parent
childless, the former children parentless, and touches nothing else. -/
theorem reparentAll_detach_spec (fuel p : Nat) :
    ∀ (li : List Nat) (σ : TreeState),
      σ.childrenF p = li → li.Nodup → (∀ o ∈ li, σ.parentF o = some p) →
      ∃ σ', reparentAll fuel none σ li = .ok σ' ∧
        σ'.childrenF p = [] ∧
        (∀ m, m ≠ p → σ'.childrenF m = σ.childrenF m) ∧
        (∀ o ∈ li, σ'.parentF o = none) ∧
        (∀ m, m ∉ li → σ'.parentF m = σ.parentF m) ∧
        σ'.variantF = σ.variantF ∧ σ'.strictMode = σ.strictMode := by
  intro li
  induction li with
  | nil =>
    intro σ hc _ _
    exact ⟨σ, rfl, hc, fun _ _ => rfl, fun o ho => absurd ho (List.not_mem_nil o),
      fun _ _ => rfl, rfl, rfl⟩
  | cons o rest ih =>
    intro σ hc hnd hpar
    have hno : o ∉ rest := (List.nodup_cons.mp hnd).1
    have hpo : σ.parentF o = some p := hpar o (List.mem_cons_self o rest)
    have homem : o ∈ σ.childrenF p := by rw [hc]; exact List.mem_cons_self o rest
    have hstep := set_parent_detach_ok σ fuel o p hpo homem
    have hfil : ∀ l : List Nat, o ∉ l → l.filter (fun c => c ≠ o) = l := by
      intro l hl
      apply List.filter_eq_self.mpr
      intro x hx
      simpa using ne_of_mem_of_not_mem hx hl
    have hdc : (detachedState σ o).childrenF p = rest := by
      unfold detachedState
      rw [hpo]
      simp only [withParent_childrenF, withChildren_childrenF, if_pos rfl, hc]
      rw [List.filter_cons]
      simp only [ne_eq, not_true_eq_false, decide_False, Bool.false_eq_true, if_false]
      exact hfil rest hno
    have hdpar : ∀ o' ∈ rest, (detachedState σ o).parentF o' = some p := by
      intro o' ho'
      rw [detachedState_parentF_ne o' (ne_of_mem_of_not_mem ho' hno)]
      exact hpar o' (List.mem_cons_of_mem o ho')
    rcases ih (detachedState σ o) hdc (List.nodup_cons.mp hnd).2 hdpar with
      ⟨σ', hok, hnil, hcm, hpn, hpm, hvf, hsm⟩
    refine ⟨σ', ?_, hnil, ?_, ?_, ?_, ?_, ?_⟩
    · rw [reparentAll_cons, hstep]
      exact hok
    · intro m hm
      rw [hcm m hm, detachedState_childrenF_ne m (by rw [hpo]; simp [Ne.symm hm])]
    · intro o' ho'
      rcases List.mem_cons.mp ho' with rfl | ho''
      · rw [hpm o' hno, detachedState_parentF_self hpo]
      · exact hpn o' ho''
    · intro m hm
      simp only [List.mem_cons, not_or] at hm
      rw [hpm m hm.2, detachedState_parentF_ne m hm.1]
    · rw [hvf, detachedState_variantF]
    · rw [hsm, detachedState_strictMode]

/-- Full specification of the `children` setter's attach loop over
candidates `cs` from a state `σ` with `p`'s (terminating) ancestor
chain `pl`: either every attach succeeds, leaving `p`'s children
extended by `cs` in order and every candidate pointing at `p`, or some
candidate is `p` itself or on `p`'s ancestor chain — then the loop
stops at the first such candidate with a `LoopError`, carrying a state
in which the preceding candidates are attached and nothing else's
parent changed. -/
theorem reparentAll_attach_spec (fuel p : Nat) (pl : List Nat) :
    ∀ (cs : List Nat) (σ : TreeState),
      pathReverse σ fuel p = .ok pl →
      cs.Nodup →
      (∀ c ∈ cs, σ.variantF c = σ.variantF p) →
      (∀ c ∈ cs, c ∉ σ.childrenF p) →
      (∀ c ∈ cs, σ.parentF c ≠ some p) →
      (∀ c ∈ cs, ∀ q, σ.parentF c = some q → c ∈ σ.childrenF q) →
      (∃ σ', reparentAll fuel (some p) σ cs = .ok σ' ∧
        σ'.childrenF p = σ.childrenF p ++ cs ∧
        (∀ c ∈ cs, σ'.parentF c = some p) ∧
        (∀ m, m ∉ cs → σ'.parentF m = σ.parentF m) ∧
        pathReverse σ' fuel p = .ok pl ∧
        σ'.variantF = σ.variantF ∧ σ'.strictMode = σ.strictMode) ∨
      (∃ c pre rest₂ σmid, cs = pre ++ c :: rest₂ ∧ (c = p ∨ c ∈ pl) ∧
        reparentAll fuel (some p) σ cs = .error (.loopError, σmid) ∧
        σmid.childrenF p = σ.childrenF p ++ pre ∧
        (∀ x ∈ pre, σmid.parentF x = some p) ∧
        (∀ m, m ∉ pre → σmid.parentF m = σ.parentF m) ∧
        pathReverse σmid fuel p = .ok pl ∧
        σmid.variantF = σ.variantF) := by
  intro cs
  induction cs with
  | nil =>
    intro σ hchain _ _ _ _ _
    exact Or.inl ⟨σ, rfl, by simp, by simp, fun _ _ => rfl, hchain, rfl, rfl⟩
  | cons c rest ih =>
    intro σ hchain hnd hv hnotin hnp hmem
    have hcin : c ∈ c :: rest := List.mem_cons_self c rest
    have hcnr : c ∉ rest := (List.nodup_cons.mp hnd).1
    by_cases hloop : c = p ∨ c ∈ pl
    · right
      refine ⟨c, [], rest, σ, by simp, hloop, ?_, by simp, by simp, fun _ _ => rfl, hchain,
        rfl⟩
      rw [reparentAll_cons,
        set_parent_attach_loop hchain (hv c hcin) (hnp c hcin) hloop]
    · push_neg at hloop
      have hstep := set_parent_attach_ok hchain (hv c hcin) (hnp c hcin)
        (hmem c hcin) (hnotin c hcin) hloop.1 hloop.2
      have hchain' : pathReverse (stepState σ c p) fuel p = .ok pl :=
        pathReverse_agree hchain fun x hx =>
          stepState_parentF_ne x (fun he => hloop.2 (he ▸ hx))
      have hch_p : (stepState σ c p).childrenF p = σ.childrenF p ++ [c] :=
        stepState_childrenF_p (hnp c hcin)
      have hv' : ∀ c' ∈ rest, (stepState σ c p).variantF c' = (stepState σ c p).variantF p := by
        intro c' hc'
        rw [stepState_variantF]
        exact hv c' (List.mem_cons_of_mem c hc')
      have hnotin' : ∀ c' ∈ rest, c' ∉ (stepState σ c p).childrenF p := by
        intro c' hc' hmem'
        rw [hch_p] at hmem'
        rcases List.mem_append.mp hmem' with h | h
        · exact hnotin c' (List.mem_cons_of_mem c hc') h
        · exact ne_of_mem_of_not_mem hc' hcnr (List.mem_singleton.mp h)
      have hnp' : ∀ c' ∈ rest, (stepState σ c p).parentF c' ≠ some p := by
        intro c' hc'
        rw [stepState_parentF_ne c' (ne_of_mem_of_not_mem hc' hcnr)]
        exact hnp c' (List.mem_cons_of_mem c hc')
      have hmem' : ∀ c' ∈ rest, ∀ q, (stepState σ c p).parentF c' = some q →
          c' ∈ (stepState σ c p).childrenF q := by
        intro c' hc' q hq
        have hne : c' ≠ c := ne_of_mem_of_not_mem hc' hcnr
        rw [stepState_parentF_ne c' hne] at hq
        have hqp : q ≠ p := by
          intro he
          exact hnp c' (List.mem_cons_of_mem c hc') (he ▸ hq)
        exact (stepState_childrenF_mem q c' hqp hne).mpr
          (hmem c' (List.mem_cons_of_mem c hc') q hq)
      rcases ih (stepState σ c p) hchain' (List.nodup_cons.mp hnd).2 hv' hnotin' hnp' hmem'
        with ⟨σ', hok, hcp', hpar', hother', hchain'', hvf', hsm'⟩ |
          ⟨c₂, pre₂, rest₃, σmid, hsplit, hloop₂, herr, hmidc, hmidpre, hmidother, hmidchain,
            hmidvar⟩
      · left
        refine ⟨σ', ?_, ?_, ?_, ?_, hchain'', ?_, ?_⟩
        · rw [reparentAll_cons, hstep]
          exact hok
        · rw [hcp', hch_p]
          simp
        · intro x hx
          rcases List.mem_cons.mp hx with rfl | hx'
          · rw [hother' x hcnr, stepState_parentF_c]
          · exact hpar' x hx'
        · intro m hm
          simp only [List.mem_cons, not_or] at hm
          rw [hother' m hm.2, stepState_parentF_ne m hm.1]
        · rw [hvf', stepState_variantF]
        · rw [hsm', stepState_strictMode]
      · right
        have hcpre : c ∉ pre₂ := fun hcp2 =>
          hcnr (hsplit ▸ List.mem_append.mpr (Or.inl hcp2))
        refine ⟨c₂, c :: pre₂, rest₃, σmid, by rw [hsplit]; rfl, hloop₂, ?_, ?_, ?_, ?_,
          hmidchain, by rw [hmidvar, stepState_variantF]⟩
        · rw [reparentAll_cons, hstep]
          exact herr
        · rw [hmidc, hch_p]
          simp
        · intro x hx
          rcases List.mem_cons.mp hx with rfl | hx'
          · rw [hmidother x hcpre, stepState_parentF_c]
          · exact hmidpre x hx'
        · intro m hm
          simp only [List.mem_cons, not_or] at hm
          rw [hmidother m hm.2, stepState_parentF_ne m hm.1]

/-- `__check_children` passes exactly when every candidate has the
parent's variant, no candidate repeats, and no candidate was already
seen. -/
theorem checkChildren_ok_iff (s : TreeState) (pvar : Nat) :
    ∀ (cs seen : List Nat),
      checkChildren s pvar cs seen = .ok () ↔
        ((∀ c ∈ cs, s.variantF c = pvar) ∧ cs.Nodup ∧ ∀ c ∈ cs, c ∉ seen) := by
  intro cs
  induction cs with
  | nil => intro seen; simp [checkChildren]
  | cons c rest ih =>
    intro seen
    unfold checkChildren
    by_cases hv : s.variantF c ≠ pvar
    · rw [if_pos hv]
      constructor
      · intro h; cases h
      · intro ⟨h1, _, _⟩
        exact absurd (h1 c (List.mem_cons_self c rest)) hv
    · rw [if_neg hv]
      push_neg at hv
      by_cases hs : c ∈ seen
      · rw [if_pos hs]
        constructor
        · intro h; cases h
        · intro ⟨_, _, h3⟩
          exact absurd hs (h3 c (List.mem_cons_self c rest))
      · rw [if_neg hs, ih (c :: seen)]
        constructor
        · intro ⟨h1, h2, h3⟩
          refine ⟨?_, List.nodup_cons.mpr ⟨?_, h2⟩, ?_⟩
          · intro x hx
            rcases List.mem_cons.mp hx with rfl | hx'
            · exact hv
            · exact h1 x hx'
          · intro hcr
            exact absurd (List.mem_cons_self c seen) (h3 c hcr)
          · intro x hx
            rcases List.mem_cons.mp hx with rfl | hx'
            · exact hs
            · intro hxs
              exact (h3 x hx') (List.mem_cons_of_mem c hxs)
        · intro ⟨h1, h2, h3⟩
          refine ⟨fun x hx => h1 x (List.mem_cons_of_mem c hx), (List.nodup_cons.mp h2).2,
            fun x hx => ?_⟩
          intro hxs
          rcases List.mem_cons.mp hxs with rfl | hxs'
          · exact (List.nodup_cons.mp h2).1 hx
          · exact h3 x (List.mem_cons_of_mem c hx) hxs'

theorem set_children_succ (fuel rfuel : Nat) (s : TreeState) (p : Nat) (cs : List Nat) :
    set_children fuel (rfuel + 1) s p cs =
      match checkChildren s (s.variantF p) cs [] with
      | .error e => .error (e, s)
      | .ok () =>
        match setChildrenAttempt fuel s p cs with
        | .ok s₂ => .ok s₂
        | .error (e, sMid) =>
          match set_children fuel rfuel sMid p (s.childrenF p) with
          | .ok sR => .error (e, sR)
          | .error e' => .error e' := rfl

/-- Successful wholesale `children` replacement: on a consistent
parent (children duplicate-free and pointing back) with a terminating
ancestor chain, assigning candidates that are duplicate-free, of the
right variant, currently parentless-or-former-children, and neither
`p` nor on `p`'s chain, succeeds and installs exactly the candidates
in order, each pointing at `p`. -/
theorem set_children_ok (fuel rfuel p : Nat) (pl : List Nat) (σ : TreeState) (cs : List Nat)
    (h1 : ∀ o ∈ σ.childrenF p, σ.parentF o = some p)
    (h2 : (σ.childrenF p).Nodup)
    (h3 : pathReverse σ fuel p = .ok pl)
    (h4 : ∀ c ∈ cs, σ.variantF c = σ.variantF p)
    (h5 : cs.Nodup)
    (h6 : ∀ c ∈ cs, σ.parentF c = none ∨ c ∈ σ.childrenF p)
    (h7 : ∀ c ∈ cs, c ≠ p ∧ c ∉ pl) :
    ∃ σ', set_children fuel (rfuel + 1) σ p cs = .ok σ' ∧
      σ'.childrenF p = cs ∧ (∀ c ∈ cs, σ'.parentF c = some p) := by
  have hcheck : checkChildren σ (σ.variantF p) cs [] = .ok () :=
    (checkChildren_ok_iff σ (σ.variantF p) cs []).mpr ⟨h4, h5, by simp⟩
  rcases reparentAll_detach_spec fuel p (σ.childrenF p) σ rfl h2 h1 with
    ⟨σ₁, hrep, hnil, hcm, hpn, hpm, hvf, hsm⟩
  have hdel : del_children fuel σ p = .ok σ₁ := by
    unfold del_children
    simp only [hrep]
    rw [if_pos hnil]
  have hplchild : ∀ x ∈ pl, x ∉ σ.childrenF p := by
    intro x hx hxc
    exact parent_not_into_chain h3 hx (h1 x hxc)
  have hchain₁ : pathReverse σ₁ fuel p = .ok pl :=
    pathReverse_agree h3 fun x hx => hpm x (hplchild x hx)
  have hparnone : ∀ c ∈ cs, σ₁.parentF c = none := by
    intro c hc
    rcases h6 c hc with hn | hin
    · by_cases hco : c ∈ σ.childrenF p
      · exact hpn c hco
      · rw [hpm c hco]; exact hn
    · exact hpn c hin
  rcases reparentAll_attach_spec fuel p pl cs σ₁ hchain₁ h5
      (fun c hc => by rw [hvf]; exact h4 c hc)
      (fun c hc => by rw [hnil]; exact List.not_mem_nil c)
      (fun c hc => by rw [hparnone c hc]; simp)
      (fun c hc q hq => absurd (hq ▸ hparnone c hc) (by simp)) with
    ⟨σ₂, hok, hcp, hpar, _, _, _, _⟩ |
      ⟨c, pre, rest₂, σmid, hsplit, hloopc, _, _, _, _, _, _⟩
  · have hattempt : setChildrenAttempt fuel σ p cs = .ok σ₂ := by
      unfold setChildrenAttempt
      split
      · rename_i e he
        rw [hdel] at he; cases he
      · rename_i s₁' he
        rw [hdel] at he; cases he
        split
        · rename_i e2 he2
          rw [hok] at he2; cases he2
        · rename_i s₂' he2
          rw [hok] at he2; cases he2
          rw [if_pos (by rw [hcp, hnil]; simp)]
    refine ⟨σ₂, ?_, by rw [hcp, hnil]; rfl, hpar⟩
    rw [set_children_succ]
    split
    · rename_i e he
      rw [hcheck] at he; cases he
    · rename_i he
      split
      · rename_i s₂' he2
        rw [hattempt] at he2; cases he2; rfl
      · rename_i e2 sMid he2
        rw [hattempt] at he2; cases he2
  · exact absurd hloopc (by
      have : c ∈ cs := hsplit ▸ List.mem_append.mpr (Or.inr (List.mem_cons_self c rest₂))
      push_neg
      exact h7 c this)

/-! ## Round-trip children assignment (C6) -/

/-- C6: for every node `p` in a consistent heap with a terminating
ancestor chain, and every sequence of fresh, unattached, pairwise
distinct children of `p`'s variant (none of them `p` itself), after
`p.children = cs` reading `p.children` returns exactly `cs` in order
and each candidate's parent is `p`. -/
theorem C6_round_trip_children (fuel rfuel p : Nat) (pl : List Nat) (s : TreeState)
    (cs : List Nat)
    (h1 : ∀ o ∈ s.childrenF p, s.parentF o = some p)
    (h2 : (s.childrenF p).Nodup)
    (h3 : pathReverse s fuel p = .ok pl)
    (hplmem : ∀ x ∈ pl, ∀ q, s.parentF x = some q → x ∈ s.childrenF q)
    (h5 : cs.Nodup)
    (hfresh : ∀ c ∈ cs, s.parentF c = none ∧ s.childrenF c = [] ∧
      s.variantF c = s.variantF p ∧ c ≠ p) :
    ∃ s', set_children fuel (rfuel + 1) s p cs = .ok s' ∧
      s'.childrenF p = cs ∧ ∀ c ∈ cs, s'.parentF c = some p := by
  apply set_children_ok fuel rfuel p pl s cs h1 h2 h3
    (fun c hc => (hfresh c hc).2.2.1) h5
    (fun c hc => Or.inl (hfresh c hc).1)
  intro c hc
  refine ⟨(hfresh c hc).2.2.2, ?_⟩
  intro hcpl
  rcases chain_member_has_child h3 hcpl (hfresh c hc).2.2.2 with ⟨y, hy, hyp⟩
  have hym := hplmem y hy c hyp
  rw [(hfresh c hc).2.1] at hym
  exact absurd hym (List.not_mem_nil y)

/-- C6 witness: assigning fresh children `[2, 3]` to node `0` (which
already had child `1`). -/
theorem C6_witness :
    okChildren (set_children 3 1 sW6 0 [2, 3]) 0 = some [2, 3] ∧
    okParent (set_children 3 1 sW6 0 [2, 3]) 2 = some (some 0) ∧
    okParent (set_children 3 1 sW6 0 [2, 3]) 3 = some (some 0) := by
  obtain ⟨s', hok, hch, hpar⟩ := C6_round_trip_children 3 0 0 [0] sW6 [2, 3]
    (by decide) (by decide) rfl
    (by
      intro x hx q hq
      rcases List.mem_singleton.mp hx with rfl
      exact Option.noConfusion hq)
    (by decide) (by decide)
  rw [hok]
  exact ⟨congrArg some hch, congrArg some (hpar 2 (by decide)),
    congrArg some (hpar 3 (by decide))⟩

/-! ## Rollback on partial failure of a children assignment (C2) -/

/-- C2: for every node `p` in a consistent heap with a terminating
ancestor chain and every candidate sequence `cs`, if the assignment
`p.children = cs` fails at any step — a wrong-variant candidate, a
duplicated candidate, or an individual attach raising — the error the
caller sees is the one raised by the validation or by the attempt
itself (the original failure), and `p`'s children are restored to the
old children, each of them again having parent `p`. -/
theorem C2_children_rollback (fuel rfuel p : Nat) (pl : List Nat) (s : TreeState)
    (cs : List Nat) (e : TreeErr) (s' : TreeState)
    (h1 : ∀ o ∈ s.childrenF p, s.parentF o = some p)
    (h2 : (s.childrenF p).Nodup)
    (hvar : ∀ o ∈ s.childrenF p, s.variantF o = s.variantF p)
    (h3 : pathReverse s fuel p = .ok pl)
    (hmemall : ∀ c ∈ cs, ∀ q, s.parentF c = some q → c ∈ s.childrenF q)
    (h : set_children fuel (rfuel + 2) s p cs = .error (e, s')) :
    (checkChildren s (s.variantF p) cs [] = .error e ∧ s' = s ∨
      ∃ sm, setChildrenAttempt fuel s p cs = .error (e, sm)) ∧
    s'.childrenF p = s.childrenF p ∧
    ∀ o ∈ s.childrenF p, s'.parentF o = some p := by
  rw [show rfuel + 2 = (rfuel + 1) + 1 from rfl, set_children_succ] at h
  split at h
  · rename_i e₀ hch
    cases h
    exact ⟨Or.inl ⟨hch, rfl⟩, rfl, h1⟩
  · rename_i hchok
    obtain ⟨hcv, hcnd, -⟩ := (checkChildren_ok_iff s (s.variantF p) cs []).mp hchok
    rcases reparentAll_detach_spec fuel p (s.childrenF p) s rfl h2 h1 with
      ⟨σ₁, hrep, hnil, hcm, hpn, hpm, hvf, hsm⟩
    have hdel : del_children fuel s p = .ok σ₁ := by
      unfold del_children
      simp only [hrep]
      rw [if_pos hnil]
    have hplchild : ∀ x ∈ pl, x ∉ s.childrenF p := fun x hx hxc =>
      parent_not_into_chain h3 hx (h1 x hxc)
    have hchain₁ : pathReverse σ₁ fuel p = .ok pl :=
      pathReverse_agree h3 fun x hx => hpm x (hplchild x hx)
    have hparn : ∀ c ∈ cs, σ₁.parentF c ≠ some p := by
      intro c hc
      by_cases hco : c ∈ s.childrenF p
      · rw [hpn c hco]; simp
      · rw [hpm c hco]
        intro hsp
        exact hco (hmemall c hc p hsp)
    have hmem₁ : ∀ c ∈ cs, ∀ q, σ₁.parentF c = some q → c ∈ σ₁.childrenF q := by
      intro c hc q hq
      by_cases hco : c ∈ s.childrenF p
      · rw [hpn c hco] at hq; cases hq
      · rw [hpm c hco] at hq
        have hcq : c ∈ s.childrenF q := hmemall c hc q hq
        have hqp : q ≠ p := fun he => hco (he ▸ hcq)
        rw [hcm q hqp]
        exact hcq
    rcases reparentAll_attach_spec fuel p pl cs σ₁ hchain₁ hcnd
        (fun c hc => by rw [hvf]; exact hcv c hc)
        (fun c hc => by rw [hnil]; exact List.not_mem_nil c)
        hparn hmem₁ with
      ⟨σ₂, hok, hcp, hpar, _, _, _, _⟩ |
        ⟨c, pre, rest₂, σmid, hsplit, hloopc, herr, hmidc, hmidpre, hmidother, hmidchain,
          hmidvar⟩
    · have hattempt : setChildrenAttempt fuel s p cs = .ok σ₂ := by
        unfold setChildrenAttempt
        split
        · rename_i e3 he3
          rw [hdel] at he3; cases he3
        · rename_i s₁' he3
          rw [hdel] at he3; cases he3
          split
          · rename_i e3 he4
            rw [hok] at he4; cases he4
          · rename_i s₂' he4
            rw [hok] at he4; cases he4
            rw [if_pos (by rw [hcp, hnil]; simp)]
      split at h
      · rename_i s₂' he2
        cases h
      · rename_i e2 sMid he2
        rw [hattempt] at he2; cases he2
    · have hattempt : setChildrenAttempt fuel s p cs = .error (.loopError, σmid) := by
        unfold setChildrenAttempt
        split
        · rename_i e3 he3
          rw [hdel] at he3; cases he3
        · rename_i s₁' he3
          rw [hdel] at he3; cases he3
          split
          · rename_i e3 he4
            rw [herr] at he4; cases he4; rfl
          · rename_i s₂' he4
            rw [herr] at he4; cases he4
      have hpremem : ∀ x ∈ pre, x ∈ cs := fun x hx =>
        hsplit ▸ List.mem_append.mpr (Or.inl hx)
      have hmidcpre : σmid.childrenF p = pre := by
        rw [hmidc, hnil]; rfl
      rcases set_children_ok fuel rfuel p pl σmid (s.childrenF p)
          (by
            intro o ho
            rw [hmidcpre] at ho
            exact hmidpre o ho)
          (by rw [hmidcpre]; exact (hsplit ▸ hcnd).of_append_left)
          hmidchain
          (by
            intro o ho
            rw [hmidvar, hvf]
            exact hvar o ho)
          h2
          (by
            intro o ho
            by_cases hop : o ∈ pre
            · exact Or.inr (by rw [hmidcpre]; exact hop)
            · exact Or.inl (by rw [hmidother o hop]; exact hpn o ho))
          (by
            intro o ho
            constructor
            · intro he
              subst he
              rcases pathReverse_head h3 with ⟨t, ht⟩
              exact parent_not_into_chain h3 (ht ▸ List.mem_cons_self o t) (h1 o ho)
            · exact fun hopl => hplchild o hopl ho) with
        ⟨σR, hRok, hRch, hRpar⟩
      split at h
      · rename_i s₂' he2
        rw [hattempt] at he2; cases he2
      · rename_i e2 sMid he2
        rw [hattempt] at he2; cases he2
        split at h
        · rename_i sR heR
          rw [hRok] at heR; cases heR
          cases h
          exact ⟨Or.inr ⟨σmid, hattempt⟩, hRch, hRpar⟩
        · rename_i e3 heR
          rw [hRok] at heR; cases heR

/-- C2 witness: assigning `[2, 0]` to node `0` fails at the attach of
`0` to itself with `LoopError`; the carried state has `0`'s children
restored to `[1]` with `1`'s parent again `0`. -/
theorem C2_witness :
    errChildren (set_children 4 2 sW2 0 [2, 0]) 0 = some [1] ∧
    errParent (set_children 4 2 sW2 0 [2, 0]) 1 = some (some 0) := by
  have h := C2_children_rollback 4 0 0 [0] sW2 [2, 0] _ _
    (by decide) (by decide) (by decide) rfl
    (by
      intro c hc q hq
      fin_cases hc <;> exact Option.noConfusion hq)
    rfl
  exact ⟨congrArg some h.2.1, congrArg some (h.2.2 1 (by decide))⟩

end AnyTree
